import Mathlib

/-!
# Sharp Frame Extractor — Frame Selection Engine, shallow embedding

This file embeds the frame-selection subsystem of the repository
(`src/App.tsx`, `getSelectedFrameIndices` and the `exportFrames` frame
lookup) in Lean 4 and proves the specified properties about it.

Modelling conventions:
* JavaScript floating-point sharpness scores are modelled as `Int`; every
  operation of the selection engine consumes scores only through `≤`, `<`,
  `max` and equality, so any linearly ordered carrier is adequate.
* `Array.prototype.sort` with a consistent comparator is, per the ECMAScript
  spec, a stable sort; it is modelled by `List.insertionSort`, which is
  stable (this development proves the instance of stability it needs).
* The `while` loop of the batch branch is modelled with explicit fuel;
  `frames.length` units of fuel are always sufficient when `batchSize ≥ 1`
  because every iteration advances the cursor by at least one.
* A JavaScript `Set<number>` is modelled as a `List Nat` together with
  `List.dedup` (a `Set` keeps one copy of each inserted element).
* `maxFrames : number | undefined` is modelled as `Option Nat`; the source
  guards the cut with the *truthiness* test `maxFrames && ...`, under which
  both `undefined` and `0` disable the cut.
-/

namespace SFE

/-- Sharpness scores (`number` in the source), modelled as `Int`. -/
abbrev Score := Int

/-- One scored frame of the analysis result (fields as used by
`getSelectedFrameIndices` / `exportFrames` in `App.tsx`). -/
structure FrameScore where
  frame_number : Nat
  sharpness : Score
deriving Repr, DecidableEq

/-- The analysis result held by the app: the ordered list of scored frames. -/
structure AnalysisResult where
  frames : List FrameScore
deriving Repr, DecidableEq

/-- The five selection modes of `getSelectedFrameIndices`. -/
inductive SelectionMode where
  | manual
  | batch
  | bestN
  | topPercentage
  | threshold
deriving Repr, DecidableEq

/-- The `SelectionSettings` record (mode-specific parameters). -/
structure SelectionSettings where
  batchSize : Nat
  batchBuffer : Nat
  bestN : Nat
  topPercentage : Nat
deriving Repr, DecidableEq

/-- A score paired with its index into the frame sequence, as built by
`map((score, idx) => ({ score, idx }))` in the source.  The threshold branch
carries the whole frame record plus `idx`, but reads only `sharpness` and
`idx` afterwards, so `(sharpness, idx)` is an observationally exact model. -/
abbrev Scored := Score × Nat

/-- Pair each score with its index: `scores.map((score, idx) => ...)`,
generalised over the starting index for the sake of induction. -/
def withIndicesFrom : Nat → List Score → List Scored
  | _, [] => []
  | i, s :: l => (s, i) :: withIndicesFrom (i + 1) l

/-- Pair each score with its index, starting at `0`. -/
def withIndices (l : List Score) : List Scored :=
  withIndicesFrom 0 l

/-- The comparator `(a, b) => b.score - a.score` of the source, as the
relation "sorted descending by score".  Ties are untouched by the comparator;
stability of the sort resolves them toward the earlier original position. -/
def scoreDesc (a b : Scored) : Prop := b.1 ≤ a.1

instance : DecidableRel scoreDesc := fun a b => inferInstanceAs (Decidable (b.1 ≤ a.1))

/-- Descending score with ties broken by ascending index: the total order
that a *stable* descending-by-score sort realises on an index-ascending
input list. -/
def scoreLex (a b : Scored) : Prop := b.1 < a.1 ∨ (a.1 = b.1 ∧ a.2 ≤ b.2)

instance : DecidableRel scoreLex := fun _ _ => inferInstanceAs (Decidable (_ ∨ _))

/-- `Math.max(...l)`.  On the empty list JavaScript yields `-Infinity`; the
batch loop below never applies it to an empty window (its windows are
non-empty whenever `batchSize ≥ 1`), so the default `0` is unreachable. -/
def jsMax : List Score → Score
  | [] => 0
  | a :: l => l.foldl max a

/-- `l.indexOf(m)` for the first occurrence of `m`.  JavaScript returns `-1`
when `m` is absent; the batch loop only ever looks up `jsMax l` with
`l ≠ []`, which is always present, so the absent case (modelled as the
list's length here) is unreachable. -/
def jsIndexOf (m : Score) : List Score → Nat
  | [] => 0
  | a :: l => if a = m then 0 else jsIndexOf m l + 1

/-- The `while (i < frames.length)` loop of the batch branch, with explicit
fuel.  Each iteration slices `scores[i .. batchEnd)`, pushes the position of
the window's maximum, and advances to `batchEnd + batchBuffer`. -/
def batchLoop (sharpnessScores : List Score) (batchSize batchBuffer : Nat) :
    Nat → Nat → List Nat
  | 0, _ => []
  | fuel + 1, i =>
    if i < sharpnessScores.length then
      let batchEnd := min (i + batchSize) sharpnessScores.length
      let batchScores := (sharpnessScores.drop i).take (batchEnd - i)
      let maxIdx := jsIndexOf (jsMax batchScores) batchScores
      (i + maxIdx) :: batchLoop sharpnessScores batchSize batchBuffer fuel (batchEnd + batchBuffer)
    else []

/-- The min-distance loop of the threshold branch: keep a frame only when
its index is at least `minFrameDistance` past the last kept index; the first
frame is always kept (`lastSelected` starts out `null`). -/
def distanceFilter (minFrameDistance : Nat) :
    Option Nat → List Scored → List Scored
  | _, [] => []
  | none, frame :: rest => frame :: distanceFilter minFrameDistance (some frame.2) rest
  | some lastSelected, frame :: rest =>
    if lastSelected + minFrameDistance ≤ frame.2 then
      frame :: distanceFilter minFrameDistance (some frame.2) rest
    else
      distanceFilter minFrameDistance (some lastSelected) rest

open List in
/-- `getSelectedFrameIndices` from `src/App.tsx` (the selection engine).
Each branch ends in the source's `.sort((a, b) => a - b)`; the final
ascending numeric sort is `insertionSort (· ≤ ·)`. -/
def getSelectedFrameIndices (analysisResult : Option AnalysisResult)
    (selectionMode : SelectionMode) (selectionSettings : SelectionSettings)
    (threshold : Score) (maxFrames : Option Nat) (minFrameDistance : Nat)
    (manuallySelectedFrames : List Nat) : List Nat :=
  match analysisResult with
  | none => []
  | some analysisResult =>
    let sharpnessScores := analysisResult.frames.map (·.sharpness)
    match selectionMode with
    | .manual =>
      insertionSort (· ≤ ·) manuallySelectedFrames.dedup
    | .batch =>
      insertionSort (· ≤ ·)
        (batchLoop sharpnessScores selectionSettings.batchSize
          selectionSettings.batchBuffer sharpnessScores.length 0)
    | .bestN =>
      let indexed := withIndices sharpnessScores
      let sorted := insertionSort scoreDesc indexed
      insertionSort (· ≤ ·) ((sorted.take selectionSettings.bestN).map (·.2))
    | .topPercentage =>
      let count := (analysisResult.frames.length * selectionSettings.topPercentage + 99) / 100
      let indexed := withIndices sharpnessScores
      let sorted := insertionSort scoreDesc indexed
      insertionSort (· ≤ ·) ((sorted.take count).map (·.2))
    | .threshold =>
      let framesAboveThreshold :=
        (withIndices sharpnessScores).filter (fun f => decide (threshold ≤ f.1))
      let framesAboveThreshold :=
        if 1 < minFrameDistance then
          distanceFilter minFrameDistance none framesAboveThreshold
        else framesAboveThreshold
      match maxFrames with
      | some m =>
        if m ≠ 0 ∧ m < framesAboveThreshold.length then
          insertionSort (· ≤ ·)
            (((insertionSort scoreDesc framesAboveThreshold).take m).map (·.2))
        else
          insertionSort (· ≤ ·) (framesAboveThreshold.map (·.2))
      | none =>
        insertionSort (· ≤ ·) (framesAboveThreshold.map (·.2))

/-- The frame lookup `selectedIndices.map(idx => analysisResult.frames[idx])`
performed by `exportFrames` when building `customResult`; an out-of-range
index yields `undefined`, modelled as `none`. -/
def customResultFrames (analysisResult : AnalysisResult) (selectedIndices : List Nat) :
    List (Option FrameScore) :=
  selectedIndices.map (fun idx => analysisResult.frames.get? idx)

/-! ## Order-theoretic facts about the two sorting relations -/

instance : IsTotal Scored scoreDesc :=
  ⟨fun a b => (le_total b.1 a.1).imp id id⟩

instance : IsTrans Scored scoreDesc :=
  ⟨fun _ _ _ h₁ h₂ => le_trans h₂ h₁⟩

instance : IsTotal Scored scoreLex := by
  constructor
  intro a b
  rcases lt_trichotomy a.1 b.1 with h | h | h
  · exact Or.inr (Or.inl h)
  · rcases le_total a.2 b.2 with h2 | h2
    · exact Or.inl (Or.inr ⟨h, h2⟩)
    · exact Or.inr (Or.inr ⟨h.symm, h2⟩)
  · exact Or.inl (Or.inl h)

instance : IsTrans Scored scoreLex := by
  constructor
  intro a b c h₁ h₂
  rcases h₁ with h₁ | ⟨h₁, h₁'⟩
  · rcases h₂ with h₂ | ⟨h₂, _⟩
    · exact Or.inl (h₂.trans h₁)
    · exact Or.inl (h₂ ▸ h₁)
  · rcases h₂ with h₂ | ⟨h₂, h₂'⟩
    · exact Or.inl (h₁ ▸ h₂)
    · exact Or.inr ⟨h₁.trans h₂, h₁'.trans h₂'⟩

instance : IsAntisymm Scored scoreLex := by
  constructor
  intro a b h₁ h₂
  rcases h₁ with h₁ | ⟨h₁, h₁'⟩
  · rcases h₂ with h₂ | ⟨h₂, _⟩
    · exact absurd (h₁.trans h₂) (lt_irrefl _)
    · exact absurd h₂ (ne_of_lt h₁)
  · rcases h₂ with h₂ | ⟨_, h₂'⟩
    · exact absurd h₁ (ne_of_lt h₂)
    · exact Prod.ext h₁ (le_antisymm h₁' h₂')

theorem scoreLex_of_scoreDesc_of_idx_lt {a b : Scored} (h : scoreDesc a b)
    (hidx : a.2 < b.2) : scoreLex a b := by
  rcases lt_or_eq_of_le h with h' | h'
  · exact Or.inl h'
  · exact Or.inr ⟨h'.symm, le_of_lt hidx⟩

/-! ## `withIndices` -/

theorem withIndicesFrom_length (i : Nat) (l : List Score) :
    (withIndicesFrom i l).length = l.length := by
  induction l generalizing i with
  | nil => rfl
  | cons s l ih => simpa [withIndicesFrom] using ih (i + 1)

theorem mem_withIndicesFrom {p : Scored} :
    ∀ {i : Nat} {l : List Score}, p ∈ withIndicesFrom i l →
      i ≤ p.2 ∧ p.2 < i + l.length ∧ l.get? (p.2 - i) = some p.1
  | i, [], h => by simp [withIndicesFrom] at h
  | i, s :: l, h => by
    rcases (List.mem_cons).mp h with h | h
    · subst h
      refine ⟨le_refl i, ?_, by simp⟩
      simp only [List.length_cons]
      omega
    · obtain ⟨h₁, h₂, h₃⟩ := mem_withIndicesFrom h
      refine ⟨by omega, by simp; omega, ?_⟩
      have : p.2 - i = (p.2 - (i + 1)) + 1 := by omega
      rw [this]
      simpa using h₃

theorem withIndicesFrom_pairwise_idx (i : Nat) (l : List Score) :
    (withIndicesFrom i l).Pairwise (fun a b => a.2 < b.2) := by
  induction l generalizing i with
  | nil => exact List.Pairwise.nil
  | cons s l ih =>
    refine List.pairwise_cons.mpr ⟨fun b hb => ?_, ih (i + 1)⟩
    exact Nat.lt_of_lt_of_le (Nat.lt_succ_self i) (mem_withIndicesFrom hb).1

theorem withIndicesFrom_map_snd (i : Nat) (l : List Score) :
    (withIndicesFrom i l).map (·.2) = List.range' i l.length := by
  induction l generalizing i with
  | nil => rfl
  | cons s l ih => simp [withIndicesFrom, List.range'_succ, ih (i + 1)]

theorem withIndices_length (l : List Score) : (withIndices l).length = l.length :=
  withIndicesFrom_length 0 l

theorem mem_withIndices {p : Scored} {l : List Score} (h : p ∈ withIndices l) :
    p.2 < l.length ∧ l.get? p.2 = some p.1 := by
  obtain ⟨_, h₂, h₃⟩ := mem_withIndicesFrom h
  exact ⟨by omega, by simpa using h₃⟩

theorem withIndices_pairwise_idx (l : List Score) :
    (withIndices l).Pairwise (fun a b => a.2 < b.2) :=
  withIndicesFrom_pairwise_idx 0 l

theorem withIndices_map_snd (l : List Score) :
    (withIndices l).map (·.2) = List.range l.length := by
  rw [withIndices, withIndicesFrom_map_snd, List.range_eq_range']

/-! ## The final ascending sort -/

theorem sortedLT_of_sortedLE_nodup : ∀ {l : List Nat},
    l.Sorted (· ≤ ·) → l.Nodup → l.Sorted (· < ·) := by
  intro l hs hn
  induction l with
  | nil => exact List.Pairwise.nil
  | cons a l ih =>
    rcases List.pairwise_cons.mp hs with ⟨h₁, h₂⟩
    rcases List.nodup_cons.mp hn with ⟨h₃, h₄⟩
    refine List.pairwise_cons.mpr ⟨fun b hb => ?_, ih h₂ h₄⟩
    exact lt_of_le_of_ne (h₁ b hb) (fun e => h₃ (e ▸ hb))

theorem sortNat_sorted_nodup {l : List Nat} (hn : l.Nodup) :
    (List.insertionSort (· ≤ ·) l).Sorted (· < ·) ∧
      (List.insertionSort (· ≤ ·) l).Nodup := by
  have hperm := List.perm_insertionSort (· ≤ ·) l
  have hn' : (List.insertionSort (· ≤ ·) l).Nodup := hperm.nodup_iff.mpr hn
  exact ⟨sortedLT_of_sortedLE_nodup (List.sorted_insertionSort _ l) hn', hn'⟩

theorem sortNat_eq_self {l : List Nat} (hs : l.Sorted (· ≤ ·)) :
    List.insertionSort (· ≤ ·) l = l :=
  List.eq_of_perm_of_sorted (List.perm_insertionSort _ l)
    (List.sorted_insertionSort _ l) hs

/-! ## Stability of the descending-by-score sort

On a list whose index components are strictly increasing, sorting with the
score-only comparator `scoreDesc` by a stable sort produces exactly the
`scoreLex` ordering (descending score, ties by ascending index). -/

theorem scoreDesc_of_scoreLex {a b : Scored} (h : scoreLex a b) : scoreDesc a b :=
  h.elim le_of_lt (fun h' => le_of_eq h'.1.symm)

theorem sorted_scoreLex_orderedInsert {a : Scored} {L : List Scored}
    (hL : L.Sorted scoreLex) (hidx : ∀ b ∈ L, a.2 < b.2) :
    (List.orderedInsert scoreDesc a L).Sorted scoreLex := by
  induction L with
  | nil => simp [List.orderedInsert, List.sorted_singleton]
  | cons b L ih =>
    rcases List.pairwise_cons.mp hL with ⟨hb, hL'⟩
    rw [List.orderedInsert]
    by_cases hab : scoreDesc a b
    · rw [if_pos hab]
      refine List.pairwise_cons.mpr ⟨fun x hx => ?_, hL⟩
      rcases List.mem_cons.mp hx with hx | hx
      · exact hx ▸ scoreLex_of_scoreDesc_of_idx_lt hab (hidx b (List.mem_cons_self b L))
      · refine scoreLex_of_scoreDesc_of_idx_lt ?_ (hidx x (List.mem_cons.mpr (Or.inr hx)))
        exact le_trans (scoreDesc_of_scoreLex (hb x hx)) hab
    · rw [if_neg hab]
      refine List.pairwise_cons.mpr ⟨fun x hx => ?_, ?_⟩
      · rcases (List.mem_orderedInsert scoreDesc).mp hx with hx | hx
        · subst hx
          exact Or.inl (lt_of_not_le hab)
        · exact hb x hx
      · exact ih hL' (fun x hx => hidx x (List.mem_cons.mpr (Or.inr hx)))

theorem insertionSort_scoreDesc_sorted_lex {l : List Scored}
    (h : l.Pairwise (fun a b => a.2 < b.2)) :
    (List.insertionSort scoreDesc l).Sorted scoreLex := by
  induction l with
  | nil => exact List.Pairwise.nil
  | cons a l ih =>
    rcases List.pairwise_cons.mp h with ⟨ha, hl⟩
    rw [List.insertionSort]
    refine sorted_scoreLex_orderedInsert (ih hl) (fun b hb => ?_)
    exact ha b ((List.perm_insertionSort scoreDesc l).mem_iff.mp hb)

theorem insertionSort_scoreDesc_eq_scoreLex {l : List Scored}
    (h : l.Pairwise (fun a b => a.2 < b.2)) :
    List.insertionSort scoreDesc l = List.insertionSort scoreLex l :=
  List.eq_of_perm_of_sorted
    ((List.perm_insertionSort scoreDesc l).trans
      (List.perm_insertionSort scoreLex l).symm)
    (insertionSort_scoreDesc_sorted_lex h)
    (List.sorted_insertionSort scoreLex l)

/-! ## Nodup plumbing for index lists -/

theorem snd_nodup_of_pairwise {l : List Scored}
    (h : l.Pairwise (fun a b => a.2 < b.2)) : (l.map (·.2)).Nodup :=
  List.Pairwise.map _ (fun _ _ hab => ne_of_lt hab) h

theorem snd_sorted_of_pairwise {l : List Scored}
    (h : l.Pairwise (fun a b => a.2 < b.2)) : (l.map (·.2)).Sorted (· < ·) :=
  List.Pairwise.map _ (fun _ _ hab => hab) h

theorem take_sort_map_snd_nodup {l : List Scored}
    (h : l.Pairwise (fun a b => a.2 < b.2)) (r : Scored → Scored → Prop)
    [DecidableRel r] (m : Nat) :
    (((List.insertionSort r l).take m).map (·.2)).Nodup := by
  have h1 : ((List.insertionSort r l).map (·.2)).Nodup :=
    (((List.perm_insertionSort r l).map (·.2)).nodup_iff).mpr (snd_nodup_of_pairwise h)
  have h2 := List.Sublist.map (fun p : Scored => p.2)
    (List.take_sublist m (List.insertionSort r l))
  exact List.Nodup.sublist h2 h1

/-! ## `Math.max` and `indexOf` -/

theorem le_foldl_max (l : List Score) (a : Score) : a ≤ l.foldl max a := by
  induction l generalizing a with
  | nil => exact le_refl a
  | cons b l ih => exact le_trans (le_max_left a b) (ih (max a b))

theorem mem_le_foldl_max {x : Score} {l : List Score} (h : x ∈ l) (a : Score) :
    x ≤ l.foldl max a := by
  induction l generalizing a with
  | nil => cases h
  | cons b l ih =>
    rw [List.foldl_cons]
    rcases List.mem_cons.mp h with rfl | h
    · exact le_trans (le_max_right a x) (le_foldl_max l (max a x))
    · exact ih h (max a b)

theorem foldl_max_mem (l : List Score) (a : Score) :
    l.foldl max a = a ∨ l.foldl max a ∈ l := by
  induction l generalizing a with
  | nil => exact Or.inl rfl
  | cons b l ih =>
    rcases ih (max a b) with h | h
    · rcases max_choice a b with h' | h'
      · exact Or.inl (by rw [List.foldl_cons, h, h'])
      · exact Or.inr (List.mem_cons.mpr (Or.inl (by rw [List.foldl_cons, h, h'])))
    · exact Or.inr (List.mem_cons.mpr (Or.inr h))

theorem jsMax_mem {l : List Score} (h : l ≠ []) : jsMax l ∈ l := by
  cases l with
  | nil => exact absurd rfl h
  | cons a l =>
    rcases foldl_max_mem l a with h' | h'
    · exact List.mem_cons.mpr (Or.inl h')
    · exact List.mem_cons.mpr (Or.inr h')

theorem le_jsMax {x : Score} {l : List Score} (h : x ∈ l) : x ≤ jsMax l := by
  cases l with
  | nil => cases h
  | cons a l =>
    rcases List.mem_cons.mp h with h' | h'
    · exact h' ▸ le_foldl_max l a
    · exact mem_le_foldl_max h' a

theorem foldl_max_max (l : List Score) (a b : Score) :
    l.foldl max (max a b) = max a (l.foldl max b) := by
  induction l generalizing b with
  | nil => rfl
  | cons c l ih =>
    simp only [List.foldl_cons]
    rw [max_assoc, ih (max b c)]

theorem jsMax_cons {a : Score} {l : List Score} (h : l ≠ []) :
    jsMax (a :: l) = max a (jsMax l) := by
  cases l with
  | nil => exact absurd rfl h
  | cons b l => simpa [jsMax] using foldl_max_max l a b

theorem jsIndexOf_lt_length {m : Score} {l : List Score} (h : m ∈ l) :
    jsIndexOf m l < l.length := by
  induction l with
  | nil => cases h
  | cons a l ih =>
    rw [jsIndexOf]
    by_cases ha : a = m
    · simp [ha]
    · rcases List.mem_cons.mp h with h' | h'
      · exact absurd h'.symm ha
      · simpa [ha] using ih h'

theorem get?_jsIndexOf {m : Score} {l : List Score} (h : m ∈ l) :
    l.get? (jsIndexOf m l) = some m := by
  induction l with
  | nil => cases h
  | cons a l ih =>
    rw [jsIndexOf]
    by_cases ha : a = m
    · simp [ha]
    · rcases List.mem_cons.mp h with h' | h'
      · exact absurd h'.symm ha
      · simpa [ha] using ih h'

/-! ## The earliest-maximum index (spec-side window pick) -/

/-- Modelled from the spec: "pick the index of the maximum score
(ties → earliest index in the window)". -/
def earliestMaxIdx : List Score → Nat
  | [] => 0
  | a :: l => if l.all (fun x => decide (x ≤ a)) then 0 else earliestMaxIdx l + 1

theorem jsIndexOf_jsMax_eq_earliestMaxIdx :
    ∀ {l : List Score}, l ≠ [] → jsIndexOf (jsMax l) l = earliestMaxIdx l
  | [], h => absurd rfl h
  | a :: l, _ => by
    rw [earliestMaxIdx]
    by_cases hall : l.all (fun x => decide (x ≤ a))
    · have hmax : jsMax (a :: l) = a := by
        cases l with
        | nil => rfl
        | cons b t =>
          rw [jsMax_cons (List.cons_ne_nil b t)]
          have hmem : jsMax (b :: t) ∈ b :: t := jsMax_mem (List.cons_ne_nil b t)
          have hle : jsMax (b :: t) ≤ a := by
            simpa using List.all_eq_true.mp hall _ hmem
          exact max_eq_left hle
      rw [if_pos hall, hmax, jsIndexOf, if_pos rfl]
    · have ⟨x, hx, hxa⟩ : ∃ x ∈ l, ¬ x ≤ a := by
        simpa using (List.all_eq_true.not.mp hall)
      have hl : l ≠ [] := List.ne_nil_of_mem hx
      have hlt : a < jsMax l := lt_of_lt_of_le (lt_of_not_le hxa) (le_jsMax hx)
      have hmax : jsMax (a :: l) = jsMax l := by
        rw [jsMax_cons hl]
        exact max_eq_right (le_of_lt hlt)
      rw [if_neg hall, hmax, jsIndexOf, if_neg (ne_of_lt hlt),
        jsIndexOf_jsMax_eq_earliestMaxIdx hl]

theorem earliestMaxIdx_lt_length {l : List Score} (h : l ≠ []) :
    earliestMaxIdx l < l.length := by
  rw [← jsIndexOf_jsMax_eq_earliestMaxIdx h]
  exact jsIndexOf_lt_length (jsMax_mem h)

theorem get?_earliestMaxIdx {l : List Score} (h : l ≠ []) :
    l.get? (earliestMaxIdx l) = some (jsMax l) := by
  rw [← jsIndexOf_jsMax_eq_earliestMaxIdx h]
  exact get?_jsIndexOf (jsMax_mem h)

/-- `scores.getD j 0`: a total lookup used to state window-maximum
properties (all uses keep `j` in range). -/
def scoreAt (scores : List Score) (j : Nat) : Score :=
  scores.getD j 0

/-- A batch window: its pick is inside the window and beats every score of
the window. -/
theorem windowPick_spec (scores : List Score) (s size : Nat)
    (hs : s < scores.length) (hsize : 1 ≤ size) :
    s + earliestMaxIdx ((scores.drop s).take size) < s + size ∧
    s + earliestMaxIdx ((scores.drop s).take size) < scores.length ∧
    ∀ j, s ≤ j → j < s + size → j < scores.length →
      scoreAt scores j ≤ scoreAt scores (s + earliestMaxIdx ((scores.drop s).take size)) := by
  set w := (scores.drop s).take size with hw
  have hwlen : w.length = min size (scores.length - s) := by
    simp [hw]
  have hwpos : 0 < w.length := by omega
  have hwne : w ≠ [] := List.ne_nil_of_length_pos hwpos
  have hidx := earliestMaxIdx_lt_length hwne
  have hget : w.get? (earliestMaxIdx w) = some (jsMax w) := get?_earliestMaxIdx hwne
  have hwget : ∀ t, t < w.length → w.get? t = scores.get? (s + t) := by
    intro t ht
    rw [hw, List.get?_take (by omega), List.get?_drop]
  refine ⟨by omega, by omega, ?_⟩
  intro j hj₁ hj₂ hj₃
  have htj : j - s < w.length := by omega
  have hjw : w.get? (j - s) = scores.get? j := by
    rw [hwget _ htj]
    congr 1
    omega
  have hjval : w.get? (j - s) = some (scoreAt scores j) := by
    rw [hjw]
    simp only [scoreAt, List.getD_eq_get?]
    cases hsome : scores.get? j with
    | none => exact absurd (List.get?_eq_none.mp hsome) (by omega)
    | some v => simp
  have hjmem : scoreAt scores j ∈ w := List.get?_mem hjval
  have hmax := le_jsMax hjmem
  have hpick : scores.get? (s + earliestMaxIdx w) = some (jsMax w) := by
    rw [← hwget _ hidx, hget]
  simp only [scoreAt, List.getD_eq_get?, hpick]
  exact hmax

/-! ## The min-distance filter -/

theorem distanceFilter_sublist (d : Nat) (last : Option Nat) (l : List Scored) :
    List.Sublist (distanceFilter d last l) l := by
  induction l generalizing last with
  | nil => cases last <;> exact List.Sublist.refl _
  | cons f rest ih =>
    cases last with
    | none => exact (ih (some f.2)).cons₂ f
    | some k =>
      rw [distanceFilter]
      by_cases hk : k + d ≤ f.2
      · rw [if_pos hk]
        exact (ih (some f.2)).cons₂ f
      · rw [if_neg hk]
        exact (ih (some k)).cons f

/-! ## The batch loop -/

/-! ## The batch loop -/

theorem batchLoop_eq_nil (scores : List Score) (bs bb : Nat) {fuel i : Nat}
    (h : scores.length ≤ i) : batchLoop scores bs bb fuel i = [] := by
  cases fuel with
  | zero => rfl
  | succ fuel => rw [batchLoop, if_neg (by omega)]

theorem batchLoop_cons (scores : List Score) (bs bb : Nat) (fuel i : Nat)
    (hi : i < scores.length) :
    batchLoop scores bs bb (fuel + 1) i =
      (i + jsIndexOf (jsMax ((scores.drop i).take (min (i + bs) scores.length - i)))
          ((scores.drop i).take (min (i + bs) scores.length - i))) ::
        batchLoop scores bs bb fuel (min (i + bs) scores.length + bb) := by
  rw [batchLoop, if_pos hi]

theorem window_length (scores : List Score) {bs i : Nat} (hbs : 1 ≤ bs)
    (hi : i < scores.length) :
    ((scores.drop i).take (min (i + bs) scores.length - i)).length
      = min (i + bs) scores.length - i ∧
    0 < min (i + bs) scores.length - i := by
  constructor
  · simp only [List.length_take, List.length_drop]
    omega
  · omega

theorem batchLoop_headIdx_lt (scores : List Score) {bs i : Nat} (hbs : 1 ≤ bs)
    (hi : i < scores.length) :
    jsIndexOf (jsMax ((scores.drop i).take (min (i + bs) scores.length - i)))
        ((scores.drop i).take (min (i + bs) scores.length - i))
      < min (i + bs) scores.length - i := by
  obtain ⟨hwlen, hwpos⟩ := window_length scores hbs hi
  have hwne : (scores.drop i).take (min (i + bs) scores.length - i) ≠ [] :=
    List.ne_nil_of_length_pos (by omega)
  have := jsIndexOf_lt_length (jsMax_mem hwne)
  omega

theorem batchLoop_mem_bounds (scores : List Score) (bs bb : Nat) (hbs : 1 ≤ bs) :
    ∀ fuel i, ∀ j ∈ batchLoop scores bs bb fuel i, i ≤ j ∧ j < scores.length := by
  intro fuel
  induction fuel with
  | zero => intro i j hj; simp [batchLoop] at hj
  | succ fuel ih =>
    intro i j hj
    by_cases hi : i < scores.length
    · rw [batchLoop_cons scores bs bb fuel i hi] at hj
      rcases List.mem_cons.mp hj with rfl | hj
      · have := batchLoop_headIdx_lt scores hbs hi
        omega
      · have := ih (min (i + bs) scores.length + bb) j hj
        omega
    · rw [batchLoop_eq_nil scores bs bb (by omega)] at hj
      cases hj

theorem batchLoop_sorted (scores : List Score) (bs bb : Nat) (hbs : 1 ≤ bs) :
    ∀ fuel i, (batchLoop scores bs bb fuel i).Sorted (· < ·) := by
  intro fuel
  induction fuel with
  | zero => intro i; exact List.Pairwise.nil
  | succ fuel ih =>
    intro i
    by_cases hi : i < scores.length
    · rw [batchLoop_cons scores bs bb fuel i hi]
      refine List.pairwise_cons.mpr ⟨fun j hj => ?_, ih (min (i + bs) scores.length + bb)⟩
      have h₁ := batchLoop_mem_bounds scores bs bb hbs fuel
        (min (i + bs) scores.length + bb) j hj
      have h₂ := batchLoop_headIdx_lt scores hbs hi
      omega
    · rw [batchLoop_eq_nil scores bs bb (by omega)]
      exact List.Pairwise.nil

theorem batchLoop_get?_window (scores : List Score) (bs bb : Nat) (hbs : 1 ≤ bs) :
    ∀ fuel i k jv, (batchLoop scores bs bb fuel i).get? k = some jv →
      i + k * (bs + bb) ≤ jv ∧ jv < i + k * (bs + bb) + bs := by
  intro fuel
  induction fuel with
  | zero =>
    intro i k jv h
    simp [batchLoop] at h
  | succ fuel ih =>
    intro i k jv h
    by_cases hi : i < scores.length
    · rw [batchLoop_cons scores bs bb fuel i hi] at h
      cases k with
      | zero =>
        rw [List.get?_cons_zero] at h
        have := batchLoop_headIdx_lt scores hbs hi
        have hjv : jv = i + jsIndexOf
            (jsMax ((scores.drop i).take (min (i + bs) scores.length - i)))
            ((scores.drop i).take (min (i + bs) scores.length - i)) :=
          (Option.some.injEq _ _ ▸ h).symm
        omega
      | succ k =>
        rw [List.get?_cons_succ] at h
        have hfull : min (i + bs) scores.length = i + bs := by
          rcases le_or_lt (i + bs) scores.length with hcase | hcase
          · omega
          · exfalso
            rw [batchLoop_eq_nil scores bs bb (by omega)] at h
            simp at h
        rw [hfull] at h
        have := ih (i + bs + bb) k jv h
        have hmul : (k + 1) * (bs + bb) = k * (bs + bb) + (bs + bb) := Nat.succ_mul _ _
        omega
    · rw [batchLoop_eq_nil scores bs bb (by omega)] at h
      simp at h

/-! ## Batch mode, spec side -/

/-- Modelled from the spec: the window start positions `0, step, 2*step, …`
strictly below `len`, where `step = batch_size + batch_buffer`.  Fuel as in
`batchLoop`; `len` units always suffice when `step ≥ 1`. -/
def windowStarts (len step : Nat) : Nat → Nat → List Nat
  | 0, _ => []
  | fuel + 1, s => if s < len then s :: windowStarts len step fuel (s + step) else []

theorem windowStarts_eq_nil (len step : Nat) {fuel s : Nat} (h : len ≤ s) :
    windowStarts len step fuel s = [] := by
  cases fuel with
  | zero => rfl
  | succ fuel => rw [windowStarts, if_neg (by omega)]

/-- Modelled from the spec: Batch mode — partition into consecutive windows
of length `batch_size` whose starts advance by `batch_size + batch_buffer`
(the last window may be shorter), pick from each window the index of the
maximum score (ties → earliest index), return the sorted union of picks. -/
def batchSelectSpec (scores : List Score) (batchSize batchBuffer : Nat) : List Nat :=
  let step := batchSize + batchBuffer
  let picks := (windowStarts scores.length step scores.length 0).map
    (fun s => s + earliestMaxIdx ((scores.drop s).take batchSize))
  List.insertionSort (· ≤ ·) picks

theorem batchLoop_eq_windows (scores : List Score) (bs bb : Nat) (hbs : 1 ≤ bs) :
    ∀ fuel i, scores.length - i ≤ fuel →
      batchLoop scores bs bb fuel i =
        (windowStarts scores.length (bs + bb) fuel i).map
          (fun s => s + earliestMaxIdx ((scores.drop s).take bs)) := by
  intro fuel
  induction fuel with
  | zero =>
    intro i h
    rfl
  | succ fuel ih =>
    intro i h
    by_cases hi : i < scores.length
    · rw [batchLoop_cons scores bs bb fuel i hi, windowStarts, if_pos hi, List.map_cons]
      obtain ⟨hwlen, hwpos⟩ := window_length scores hbs hi
      have hwne : (scores.drop i).take (min (i + bs) scores.length - i) ≠ [] :=
        List.ne_nil_of_length_pos (by omega)
      have hw_eq : (scores.drop i).take (min (i + bs) scores.length - i)
          = (scores.drop i).take bs := by
        have hdl : (scores.drop i).length = scores.length - i := List.length_drop i scores
        rcases le_or_lt (i + bs) scores.length with hcase | hcase
        · congr 1
          omega
        · have h1 : min (i + bs) scores.length - i = (scores.drop i).length := by omega
          rw [h1, List.take_length]
          exact (List.take_of_length_le (by omega)).symm
      have hpick : jsIndexOf (jsMax ((scores.drop i).take (min (i + bs) scores.length - i)))
            ((scores.drop i).take (min (i + bs) scores.length - i))
          = earliestMaxIdx ((scores.drop i).take bs) := by
        rw [jsIndexOf_jsMax_eq_earliestMaxIdx hwne, hw_eq]
      rw [hpick]
      congr 1
      rcases le_or_lt (i + bs) scores.length with hcase | hcase
      · have hbe' : min (i + bs) scores.length + bb = i + (bs + bb) := by omega
        rw [hbe']
        exact ih (i + (bs + bb)) (by omega)
      · have h1 : batchLoop scores bs bb fuel (min (i + bs) scores.length + bb) = [] :=
          batchLoop_eq_nil scores bs bb (by omega)
        have h2 : windowStarts scores.length (bs + bb) fuel (i + (bs + bb)) = [] :=
          windowStarts_eq_nil _ _ (by omega)
        rw [h1, h2]
        rfl
    · rw [batchLoop_eq_nil scores bs bb (by omega),
        windowStarts_eq_nil _ _ (by omega)]
      rfl

/-! ## Threshold mode, spec side -/

/-- Modelled from the spec (claim C1, amended): keep the frames whose score
is ≥ threshold, in index order; if `min_distance > 1`, greedily keep a
candidate only when its index is at least `min_distance` past the last kept
index (first candidate always kept); if `max_frames` is set *to a nonzero
value* and more candidates remain, keep the `max_frames` candidates of
highest score (ties toward the earlier index) and return them in ascending
index order. -/
def thresholdSelectSpec (scores : List Score) (threshold : Score)
    (minDistance : Nat) (maxFrames : Option Nat) : List Nat :=
  let kept := (withIndices scores).filter (fun f => decide (threshold ≤ f.1))
  let kept := if 1 < minDistance then distanceFilter minDistance none kept else kept
  match maxFrames with
  | some m =>
    if m ≠ 0 ∧ m < kept.length then
      List.insertionSort (· ≤ ·)
        (((List.insertionSort scoreLex kept).take m).map (·.2))
    else kept.map (·.2)
  | none => kept.map (·.2)

/-- Modelled from the spec: claim C1 *as stated* — the `max_frames` cut
applies whenever `max_frames` is set and more candidates remain, so a set
value of `0` keeps the best zero candidates, i.e. returns the empty
selection. -/
def thresholdSelectClaimed (scores : List Score) (threshold : Score)
    (minDistance : Nat) (maxFrames : Option Nat) : List Nat :=
  let kept := (withIndices scores).filter (fun f => decide (threshold ≤ f.1))
  let kept := if 1 < minDistance then distanceFilter minDistance none kept else kept
  match maxFrames with
  | some m =>
    if m < kept.length then
      List.insertionSort (· ≤ ·)
        (((List.insertionSort scoreLex kept).take m).map (·.2))
    else kept.map (·.2)
  | none => kept.map (·.2)

theorem kept_pairwise (scores : List Score) (th : Score) (md : Nat) :
    (if 1 < md then
        distanceFilter md none
          ((withIndices scores).filter (fun f => decide (th ≤ f.1)))
      else
        (withIndices scores).filter (fun f => decide (th ≤ f.1))).Pairwise
      (fun a b => a.2 < b.2) := by
  have h0 : ((withIndices scores).filter
      (fun f => decide (th ≤ f.1))).Pairwise (fun a b => a.2 < b.2) :=
    (withIndices_pairwise_idx scores).sublist (List.filter_sublist _)
  split
  · exact h0.sublist (distanceFilter_sublist md none _)
  · exact h0

theorem threshold_eq_spec (ar : AnalysisResult) (st : SelectionSettings)
    (th : Score) (mf : Option Nat) (md : Nat) (man : List Nat) :
    getSelectedFrameIndices (some ar) .threshold st th mf md man =
      thresholdSelectSpec (ar.frames.map (·.sharpness)) th md mf := by
  simp only [getSelectedFrameIndices, thresholdSelectSpec]
  have hpw := kept_pairwise (ar.frames.map (·.sharpness)) th md
  set kept := if 1 < md then
      distanceFilter md none
        ((withIndices (ar.frames.map (·.sharpness))).filter (fun f => decide (th ≤ f.1)))
    else
      (withIndices (ar.frames.map (·.sharpness))).filter (fun f => decide (th ≤ f.1))
    with hkept
  have hsortmap : List.insertionSort (· ≤ ·) (kept.map (·.2)) = kept.map (·.2) :=
    sortNat_eq_self ((snd_sorted_of_pairwise hpw).imp (fun h => le_of_lt h))
  cases mf with
  | none => exact hsortmap
  | some m =>
    dsimp only
    by_cases hcond : m ≠ 0 ∧ m < kept.length
    · rw [if_pos hcond, if_pos hcond, insertionSort_scoreDesc_eq_scoreLex hpw]
    · rw [if_neg hcond, if_neg hcond]
      exact hsortmap

/-! ## BestN mode, spec side -/

/-- Modelled from the spec: BestN — sort all frames by descending score
(ties → ascending index, for determinism), take the first `n`, return them
sorted by index. -/
def bestNSpec (scores : List Score) (n : Nat) : List Nat :=
  List.insertionSort (· ≤ ·)
    (((List.insertionSort scoreLex (withIndices scores)).take n).map (·.2))

theorem bestN_eq_spec (ar : AnalysisResult) (bs bb n pct : Nat) (th : Score)
    (mf : Option Nat) (md : Nat) (man : List Nat) :
    getSelectedFrameIndices (some ar) .bestN ⟨bs, bb, n, pct⟩ th mf md man =
      bestNSpec (ar.frames.map (·.sharpness)) n := by
  simp only [getSelectedFrameIndices, bestNSpec]
  rw [insertionSort_scoreDesc_eq_scoreLex (withIndices_pairwise_idx _)]

theorem sort_perm_range {l : List Nat} {n : Nat} (h : l.Perm (List.range n)) :
    List.insertionSort (· ≤ ·) l = List.range n := by
  refine List.eq_of_perm_of_sorted ((List.perm_insertionSort _ l).trans h)
    (List.sorted_insertionSort _ l) ?_
  exact (List.pairwise_lt_range n).imp (fun h => le_of_lt h)

theorem batch_branch_eq_loop (ar : AnalysisResult) (bs bb n pct : Nat)
    (th : Score) (mf : Option Nat) (md : Nat) (man : List Nat) (hbs : 1 ≤ bs) :
    getSelectedFrameIndices (some ar) .batch ⟨bs, bb, n, pct⟩ th mf md man =
      batchLoop (ar.frames.map (·.sharpness)) bs bb
        (ar.frames.map (·.sharpness)).length 0 := by
  simp only [getSelectedFrameIndices]
  exact sortNat_eq_self
    ((batchLoop_sorted _ _ _ hbs _ 0).imp (fun h => le_of_lt h))

theorem batch_branch_eq_spec (ar : AnalysisResult) (bs bb n pct : Nat)
    (th : Score) (mf : Option Nat) (md : Nat) (man : List Nat) (hbs : 1 ≤ bs) :
    getSelectedFrameIndices (some ar) .batch ⟨bs, bb, n, pct⟩ th mf md man =
      batchSelectSpec (ar.frames.map (·.sharpness)) bs bb := by
  simp only [getSelectedFrameIndices, batchSelectSpec]
  rw [batchLoop_eq_windows _ _ _ hbs _ 0 (by omega)]

/-! ## The claims -/

/-- Claim C1 (amended): Threshold-mode selection first keeps exactly the
frames whose sharpness is ≥ the threshold in index order, then applies the
greedy min-distance filter when `min_distance > 1`, then — when `max_frames`
is set *to a nonzero value* and more candidates remain — keeps the
`max_frames` candidates of highest score (ties toward the earlier index) in
ascending index order.  For scores `[1,5,2,8,3]` with threshold 4 the
selection is `[1,3]` at `min_distance = 1` and `[1]` at `min_distance = 3`. -/
theorem C1_threshold_pipeline :
    (∀ (ar : AnalysisResult) (st : SelectionSettings) (th : Score)
        (mf : Option Nat) (md : Nat) (man : List Nat),
      getSelectedFrameIndices (some ar) .threshold st th mf md man =
        thresholdSelectSpec (ar.frames.map (·.sharpness)) th md mf) ∧
    getSelectedFrameIndices (some ⟨[⟨0, 1⟩, ⟨1, 5⟩, ⟨2, 2⟩, ⟨3, 8⟩, ⟨4, 3⟩]⟩)
      .threshold ⟨3, 1, 50, 10⟩ 4 none 1 [] = [1, 3] ∧
    getSelectedFrameIndices (some ⟨[⟨0, 1⟩, ⟨1, 5⟩, ⟨2, 2⟩, ⟨3, 8⟩, ⟨4, 3⟩]⟩)
      .threshold ⟨3, 1, 50, 10⟩ 4 none 3 [] = [1] :=
  ⟨threshold_eq_spec, by decide, by decide⟩

/-- Claim C1 counterexample: with `max_frames` set to `0` and one candidate
remaining, the claim as stated (modelled by `thresholdSelectClaimed`)
predicts the empty selection, but the code returns the candidate — the
source's truthiness test `maxFrames && …` treats `0` as unset. -/
theorem C1_counterexample :
    getSelectedFrameIndices (some ⟨[⟨0, 5⟩]⟩) .threshold ⟨3, 1, 50, 10⟩ 0
        (some 0) 1 [] = [0] ∧
    thresholdSelectClaimed [5] 0 1 (some 0) = [] := by
  decide

/-- Claim C2: for every analysis result and every selection policy (with the
batch policy's `batch_size ≥ 1`, as required for the source's loop to
terminate), the selected index sequence is strictly increasing and free of
duplicates. -/
theorem C2_output_strictly_increasing (ar : Option AnalysisResult)
    (mode : SelectionMode) (st : SelectionSettings) (th : Score)
    (mf : Option Nat) (md : Nat) (man : List Nat)
    (hbatch : mode = SelectionMode.batch → 1 ≤ st.batchSize) :
    (getSelectedFrameIndices ar mode st th mf md man).Sorted (· < ·) ∧
      (getSelectedFrameIndices ar mode st th mf md man).Nodup := by
  cases ar with
  | none =>
    exact ⟨List.Pairwise.nil, List.Pairwise.nil⟩
  | some ar =>
    cases mode with
    | manual =>
      simp only [getSelectedFrameIndices]
      exact sortNat_sorted_nodup (List.nodup_dedup _)
    | batch =>
      simp only [getSelectedFrameIndices]
      have hsorted := batchLoop_sorted (ar.frames.map (·.sharpness))
        st.batchSize st.batchBuffer (hbatch rfl)
        (ar.frames.map (·.sharpness)).length 0
      exact sortNat_sorted_nodup hsorted.nodup
    | bestN =>
      simp only [getSelectedFrameIndices]
      exact sortNat_sorted_nodup
        (take_sort_map_snd_nodup (withIndices_pairwise_idx _) scoreDesc _)
    | topPercentage =>
      simp only [getSelectedFrameIndices]
      exact sortNat_sorted_nodup
        (take_sort_map_snd_nodup (withIndices_pairwise_idx _) scoreDesc _)
    | threshold =>
      simp only [getSelectedFrameIndices]
      have hpw := kept_pairwise (ar.frames.map (·.sharpness)) th md
      set kept := if 1 < md then
          distanceFilter md none
            ((withIndices (ar.frames.map (·.sharpness))).filter
              (fun f => decide (th ≤ f.1)))
        else
          (withIndices (ar.frames.map (·.sharpness))).filter
            (fun f => decide (th ≤ f.1))
        with hkept
      cases mf with
      | none => exact sortNat_sorted_nodup (snd_nodup_of_pairwise hpw)
      | some m =>
        dsimp only
        by_cases hcond : m ≠ 0 ∧ m < kept.length
        · rw [if_pos hcond]
          exact sortNat_sorted_nodup (take_sort_map_snd_nodup hpw scoreDesc m)
        · rw [if_neg hcond]
          exact sortNat_sorted_nodup (snd_nodup_of_pairwise hpw)

/-- Witness for C2 at a concrete batch-mode input. -/
theorem C2_witness :
    (getSelectedFrameIndices (some ⟨[⟨0, 3⟩, ⟨1, 1⟩, ⟨2, 4⟩]⟩) .batch
        ⟨3, 1, 50, 10⟩ 0 none 1 []).Sorted (· < ·) ∧
      (getSelectedFrameIndices (some ⟨[⟨0, 3⟩, ⟨1, 1⟩, ⟨2, 4⟩]⟩) .batch
        ⟨3, 1, 50, 10⟩ 0 none 1 []).Nodup :=
  C2_output_strictly_increasing (some ⟨[⟨0, 3⟩, ⟨1, 1⟩, ⟨2, 4⟩]⟩) .batch
    ⟨3, 1, 50, 10⟩ 0 none 1 [] (fun _ => by decide)

/-- Claim C3 (amended): a `max_frames` of `0` is treated as unset — the
Threshold-mode result with `max_frames = 0` equals the result with no
`max_frames` limit at all, so all frames passing the threshold and distance
filters are returned (not the empty selection). -/
theorem C3_maxFrames_zero_is_unset (ar : Option AnalysisResult)
    (st : SelectionSettings) (th : Score) (md : Nat) (man : List Nat) :
    getSelectedFrameIndices ar .threshold st th (some 0) md man =
      getSelectedFrameIndices ar .threshold st th none md man := by
  cases ar with
  | none => rfl
  | some ar =>
    simp only [getSelectedFrameIndices]
    rw [if_neg (by simp)]

/-- Claim C3 counterexample: a non-empty analysis result whose single frame
passes the threshold; with `max_frames = 0` the claim predicts the empty
selection, but the code returns `[0]`. -/
theorem C3_counterexample :
    getSelectedFrameIndices (some ⟨[⟨0, 5⟩]⟩) .threshold ⟨3, 1, 50, 10⟩ 0
        (some 0) 1 [] = [0] ∧
    getSelectedFrameIndices (some ⟨[⟨0, 5⟩]⟩) .threshold ⟨3, 1, 50, 10⟩ 0
        (some 0) 1 [] ≠ [] := by
  decide

/-- Claim C4: Batch-mode selection equals the specified algorithm — windows
of length `batch_size` whose starts advance by `batch_size + batch_buffer`
(last window possibly shorter), the earliest index of each window's maximum
score, sorted union of the picks. -/
theorem C4_batch_eq_spec (ar : AnalysisResult) (bs bb n pct : Nat)
    (th : Score) (mf : Option Nat) (md : Nat) (man : List Nat) (hbs : 2 ≤ bs) :
    getSelectedFrameIndices (some ar) .batch ⟨bs, bb, n, pct⟩ th mf md man =
      batchSelectSpec (ar.frames.map (·.sharpness)) bs bb :=
  batch_branch_eq_spec ar bs bb n pct th mf md man (by omega)

/-- Witness for C4 at a concrete input. -/
theorem C4_witness :
    getSelectedFrameIndices (some ⟨[⟨0, 1⟩, ⟨1, 7⟩, ⟨2, 2⟩, ⟨3, 9⟩, ⟨4, 4⟩]⟩)
        .batch ⟨2, 1, 50, 10⟩ 0 none 1 [] =
      batchSelectSpec [1, 7, 2, 9, 4] 2 1 :=
  C4_batch_eq_spec ⟨[⟨0, 1⟩, ⟨1, 7⟩, ⟨2, 2⟩, ⟨3, 9⟩, ⟨4, 4⟩]⟩
    2 1 50 10 0 none 1 [] (by decide)

theorem window_disjoint {step bs : Nat} (hbs : bs ≤ step) {k₁ k₂ jv : Nat}
    (h₁ : k₁ * step ≤ jv ∧ jv < k₁ * step + bs)
    (h₂ : k₂ * step ≤ jv ∧ jv < k₂ * step + bs) : k₁ = k₂ := by
  rcases lt_trichotomy k₁ k₂ with h | h | h
  · exfalso
    have hmul : (k₁ + 1) * step ≤ k₂ * step := Nat.mul_le_mul_right step h
    have hsucc : (k₁ + 1) * step = k₁ * step + step := Nat.succ_mul _ _
    omega
  · exact h
  · exfalso
    have hmul : (k₂ + 1) * step ≤ k₁ * step := Nat.mul_le_mul_right step h
    have hsucc : (k₂ + 1) * step = k₂ * step + step := Nat.succ_mul _ _
    omega

theorem length_filter_le_one_of_unique_pos {l : List Nat} {p : Nat → Bool}
    (h : ∀ k₁ k₂ jv₁ jv₂, l.get? k₁ = some jv₁ → l.get? k₂ = some jv₂ →
      p jv₁ = true → p jv₂ = true → k₁ = k₂) :
    (l.filter p).length ≤ 1 := by
  induction l with
  | nil => simp
  | cons a l ih =>
    by_cases hpa : p a = true
    · rw [List.filter_cons_of_pos hpa]
      have hnil : l.filter p = [] := by
        rw [List.filter_eq_nil]
        intro b hb hpb
        obtain ⟨k, hk⟩ := List.mem_iff_get?.mp hb
        have := h 0 (k + 1) a b List.get?_cons_zero
          (by rw [List.get?_cons_succ]; exact hk) hpa hpb
        omega
      rw [hnil]
      exact le_refl 1
    · rw [List.filter_cons_of_neg hpa]
      refine ih (fun k₁ k₂ jv₁ jv₂ h₁ h₂ hp₁ hp₂ => ?_)
      have := h (k₁ + 1) (k₂ + 1) jv₁ jv₂
        (by rw [List.get?_cons_succ]; exact h₁)
        (by rw [List.get?_cons_succ]; exact h₂) hp₁ hp₂
      omega

/-- Claim C5 (amended): in Batch mode the `k`-th selected index always lies
in the `k`-th window `[k*(batch_size+batch_buffer), …+batch_size)`, so every
window contributes at most one selected index; with `batch_size = 3`,
`batch_buffer = 1` over 10 frames the windows are `[0–2]`, `[4–6]`, `[8–9]`
(frame 7 falls in the buffer gap), with exactly 3 picks, one per window,
each the maximum of its window.  (The original claim's windows
`[0–2],[4–6],[7–9]` and its `batch_buffer = 0` distance bound of
`batch_size` are refuted by `C5_counterexample`.) -/
theorem C5_batch_window_discipline :
    (∀ (ar : AnalysisResult) (bs bb n pct : Nat) (th : Score)
        (mf : Option Nat) (md : Nat) (man : List Nat), 2 ≤ bs →
      (∀ k jv,
        (getSelectedFrameIndices (some ar) .batch ⟨bs, bb, n, pct⟩ th mf md man).get? k
            = some jv →
          k * (bs + bb) ≤ jv ∧ jv < k * (bs + bb) + bs) ∧
      (∀ k,
        ((getSelectedFrameIndices (some ar) .batch ⟨bs, bb, n, pct⟩ th mf md man).filter
            (fun j => decide (k * (bs + bb) ≤ j ∧ j < k * (bs + bb) + bs))).length ≤ 1)) ∧
    (∀ (ar : AnalysisResult) (n pct : Nat) (th : Score) (mf : Option Nat)
        (md : Nat) (man : List Nat), ar.frames.length = 10 →
      ∃ p₀ p₁ p₂,
        getSelectedFrameIndices (some ar) .batch ⟨3, 1, n, pct⟩ th mf md man
            = [p₀, p₁, p₂] ∧
        (p₀ < 3 ∧ ∀ j, j < 3 →
          scoreAt (ar.frames.map (·.sharpness)) j
            ≤ scoreAt (ar.frames.map (·.sharpness)) p₀) ∧
        (4 ≤ p₁ ∧ p₁ < 7 ∧ ∀ j, 4 ≤ j → j < 7 →
          scoreAt (ar.frames.map (·.sharpness)) j
            ≤ scoreAt (ar.frames.map (·.sharpness)) p₁) ∧
        (8 ≤ p₂ ∧ p₂ < 10 ∧ ∀ j, 8 ≤ j → j < 10 →
          scoreAt (ar.frames.map (·.sharpness)) j
            ≤ scoreAt (ar.frames.map (·.sharpness)) p₂)) := by
  constructor
  · intro ar bs bb n pct th mf md man hbs
    have hloop := batch_branch_eq_loop ar bs bb n pct th mf md man (by omega)
    have hwin : ∀ k jv,
        (getSelectedFrameIndices (some ar) .batch ⟨bs, bb, n, pct⟩ th mf md man).get? k
            = some jv →
          k * (bs + bb) ≤ jv ∧ jv < k * (bs + bb) + bs := by
      intro k jv hk
      rw [hloop] at hk
      have := batchLoop_get?_window (ar.frames.map (·.sharpness)) bs bb (by omega)
        (ar.frames.map (·.sharpness)).length 0 k jv hk
      omega
    refine ⟨hwin, fun k => ?_⟩
    refine length_filter_le_one_of_unique_pos (fun k₁ k₂ jv₁ jv₂ h₁ h₂ hp₁ hp₂ => ?_)
    have hw₁ := hwin k₁ jv₁ h₁
    have hw₂ := hwin k₂ jv₂ h₂
    have hq₁ : k * (bs + bb) ≤ jv₁ ∧ jv₁ < k * (bs + bb) + bs := of_decide_eq_true hp₁
    have hq₂ : k * (bs + bb) ≤ jv₂ ∧ jv₂ < k * (bs + bb) + bs := of_decide_eq_true hp₂
    have e₁ : k₁ = k := window_disjoint (Nat.le_add_right bs bb) hw₁ hq₁
    have e₂ : k₂ = k := window_disjoint (Nat.le_add_right bs bb) hw₂ hq₂
    omega
  · intro ar n pct th mf md man h10
    set scores := ar.frames.map (·.sharpness) with hscores
    have hslen : scores.length = 10 := by
      rw [hscores, List.length_map, h10]
    have hsel := batch_branch_eq_loop ar 3 1 n pct th mf md man (by omega)
    have heq := batchLoop_eq_windows scores 3 1 (by omega) scores.length 0 (by omega)
    rw [hslen] at heq
    have hws : windowStarts 10 4 10 0 = [0, 4, 8] := by decide
    rw [hws] at heq
    simp only [List.map_cons, List.map_nil] at heq
    rw [← hscores, hslen] at hsel
    rw [heq] at hsel
    obtain ⟨hb₀, hc₀, hm₀⟩ := windowPick_spec scores 0 3 (by omega) (by omega)
    obtain ⟨hb₁, hc₁, hm₁⟩ := windowPick_spec scores 4 3 (by omega) (by omega)
    obtain ⟨hb₂, hc₂, hm₂⟩ := windowPick_spec scores 8 3 (by omega) (by omega)
    refine ⟨0 + earliestMaxIdx ((scores.drop 0).take 3),
      4 + earliestMaxIdx ((scores.drop 4).take 3),
      8 + earliestMaxIdx ((scores.drop 8).take 3), hsel, ⟨by omega, ?_⟩,
      ⟨by omega, by omega, ?_⟩, ⟨by omega, by omega, ?_⟩⟩
    · intro j hj
      exact hm₀ j (by omega) (by omega) (by omega)
    · intro j hj₁ hj₂
      exact hm₁ j (by omega) (by omega) (by omega)
    · intro j hj₁ hj₂
      exact hm₂ j (by omega) (by omega) (by omega)

/-- Claim C5 counterexample: with `batch_size = 3`, `batch_buffer = 0` and
scores `[0,0,5,6,0,0]` the consecutive selected indices `2` and `3` are only
`1` apart (the claim demands at least `batch_size = 3`); and with
`batch_size = 3`, `batch_buffer = 1` over the 10 scores
`[0,0,0,0,0,0,0,9,1,2]` the selection `[0,4,9]` does not contain index `7`,
although the claim's window `[7–9]` would have to pick its maximum, index
`7` (score 9). -/
theorem C5_counterexample :
    (getSelectedFrameIndices
        (some ⟨[⟨0, 0⟩, ⟨1, 0⟩, ⟨2, 5⟩, ⟨3, 6⟩, ⟨4, 0⟩, ⟨5, 0⟩]⟩) .batch
        ⟨3, 0, 50, 10⟩ 0 none 1 [] = [2, 3] ∧ 3 - 2 < 3) ∧
    (getSelectedFrameIndices
        (some ⟨[⟨0, 0⟩, ⟨1, 0⟩, ⟨2, 0⟩, ⟨3, 0⟩, ⟨4, 0⟩, ⟨5, 0⟩, ⟨6, 0⟩,
          ⟨7, 9⟩, ⟨8, 1⟩, ⟨9, 2⟩]⟩) .batch ⟨3, 1, 50, 10⟩ 0 none 1 []
        = [0, 4, 9] ∧
      (7 : Nat) ∉ getSelectedFrameIndices
        (some ⟨[⟨0, 0⟩, ⟨1, 0⟩, ⟨2, 0⟩, ⟨3, 0⟩, ⟨4, 0⟩, ⟨5, 0⟩, ⟨6, 0⟩,
          ⟨7, 9⟩, ⟨8, 1⟩, ⟨9, 2⟩]⟩) .batch ⟨3, 1, 50, 10⟩ 0 none 1 []) := by
  decide

/-- Witness for C5 at a concrete input. -/
theorem C5_witness :
    ((getSelectedFrameIndices
        (some ⟨[⟨0, 0⟩, ⟨1, 0⟩, ⟨2, 0⟩, ⟨3, 0⟩, ⟨4, 0⟩, ⟨5, 0⟩, ⟨6, 0⟩,
          ⟨7, 9⟩, ⟨8, 1⟩, ⟨9, 2⟩]⟩) .batch ⟨3, 1, 50, 10⟩ 0 none 1 []).filter
        (fun j => decide (2 * (3 + 1) ≤ j ∧ j < 2 * (3 + 1) + 3))).length ≤ 1 ∧
    (∃ p₀ p₁ p₂, getSelectedFrameIndices
        (some ⟨[⟨0, 0⟩, ⟨1, 0⟩, ⟨2, 0⟩, ⟨3, 0⟩, ⟨4, 0⟩, ⟨5, 0⟩, ⟨6, 0⟩,
          ⟨7, 9⟩, ⟨8, 1⟩, ⟨9, 2⟩]⟩) .batch ⟨3, 1, 50, 10⟩ 0 none 1 []
        = [p₀, p₁, p₂]) := by
  constructor
  · exact (C5_batch_window_discipline.1
      ⟨[⟨0, 0⟩, ⟨1, 0⟩, ⟨2, 0⟩, ⟨3, 0⟩, ⟨4, 0⟩, ⟨5, 0⟩, ⟨6, 0⟩,
        ⟨7, 9⟩, ⟨8, 1⟩, ⟨9, 2⟩]⟩ 3 1 50 10 0 none 1 [] (by decide)).2 2
  · obtain ⟨p₀, p₁, p₂, hsel, -⟩ := C5_batch_window_discipline.2
      ⟨[⟨0, 0⟩, ⟨1, 0⟩, ⟨2, 0⟩, ⟨3, 0⟩, ⟨4, 0⟩, ⟨5, 0⟩, ⟨6, 0⟩,
        ⟨7, 9⟩, ⟨8, 1⟩, ⟨9, 2⟩]⟩ 50 10 0 none 1 [] (by decide)
    exact ⟨p₀, p₁, p₂, hsel⟩

/-- Claim C6 (amended): on an analysis result with zero frame scores the
four score-based policies return the empty selection; Manual returns the
caller's set (sorted ascending, duplicates removed) irrespective of the
analysis result, so it is empty only when that set is empty.  Selection is a
total function — it never signals an error. -/
theorem C6_empty_result (st : SelectionSettings) (th : Score)
    (mf : Option Nat) (md : Nat) (man : List Nat) :
    getSelectedFrameIndices (some ⟨[]⟩) .threshold st th mf md man = [] ∧
    getSelectedFrameIndices (some ⟨[]⟩) .batch st th mf md man = [] ∧
    getSelectedFrameIndices (some ⟨[]⟩) .bestN st th mf md man = [] ∧
    getSelectedFrameIndices (some ⟨[]⟩) .topPercentage st th mf md man = [] ∧
    getSelectedFrameIndices (some ⟨[]⟩) .manual st th mf md man =
      List.insertionSort (· ≤ ·) man.dedup := by
  refine ⟨?_, ?_, ?_, ?_, rfl⟩
  · cases mf with
    | none =>
      simp [getSelectedFrameIndices, withIndices, withIndicesFrom,
        distanceFilter, List.insertionSort]
    | some m =>
      simp [getSelectedFrameIndices, withIndices, withIndicesFrom,
        distanceFilter, List.insertionSort]
  · simp [getSelectedFrameIndices, batchLoop, List.insertionSort]
  · simp [getSelectedFrameIndices, withIndices, withIndicesFrom, List.insertionSort]
  · simp [getSelectedFrameIndices, withIndices, withIndicesFrom, List.insertionSort]

/-- Claim C6 counterexample: with an empty analysis result, Manual mode with
a non-empty caller set returns that set, not the empty selection. -/
theorem C6_counterexample :
    getSelectedFrameIndices (some ⟨[]⟩) .manual ⟨3, 1, 50, 10⟩ 0 none 1 [5]
        = [5] ∧
    getSelectedFrameIndices (some ⟨[]⟩) .manual ⟨3, 1, 50, 10⟩ 0 none 1 [5]
        ≠ [] := by
  decide

/-- Claim C7: TopPercentage-mode selection coincides with BestN-mode
selection at `n = ⌈total · percentage / 100⌉` (here `(len·pct + 99) / 100`),
and its size never exceeds the number of available frames. -/
theorem C7_topPercentage_eq_bestN (ar : AnalysisResult) (bs bb n pct : Nat)
    (th : Score) (mf : Option Nat) (md : Nat) (man : List Nat)
    (h1 : 1 ≤ pct) (h2 : pct ≤ 100) :
    getSelectedFrameIndices (some ar) .topPercentage ⟨bs, bb, n, pct⟩ th mf md man =
      getSelectedFrameIndices (some ar) .bestN
        ⟨bs, bb, (ar.frames.length * pct + 99) / 100, pct⟩ th mf md man ∧
    (getSelectedFrameIndices (some ar) .topPercentage ⟨bs, bb, n, pct⟩
        th mf md man).length ≤ ar.frames.length := by
  constructor
  · rfl
  · simp only [getSelectedFrameIndices]
    rw [(List.perm_insertionSort (· ≤ ·) _).length_eq, List.length_map,
      List.length_take]
    have h3 := (List.perm_insertionSort scoreDesc
      (withIndices (ar.frames.map (·.sharpness)))).length_eq
    rw [withIndices_length, List.length_map] at h3
    omega

/-- Witness for C7 at a concrete input. -/
theorem C7_witness :
    getSelectedFrameIndices (some ⟨[⟨0, 3⟩, ⟨1, 1⟩, ⟨2, 4⟩]⟩) .topPercentage
        ⟨3, 1, 50, 50⟩ 0 none 1 [] =
      getSelectedFrameIndices (some ⟨[⟨0, 3⟩, ⟨1, 1⟩, ⟨2, 4⟩]⟩) .bestN
        ⟨3, 1, (3 * 50 + 99) / 100, 50⟩ 0 none 1 [] ∧
    (getSelectedFrameIndices (some ⟨[⟨0, 3⟩, ⟨1, 1⟩, ⟨2, 4⟩]⟩) .topPercentage
        ⟨3, 1, 50, 50⟩ 0 none 1 []).length ≤ 3 :=
  C7_topPercentage_eq_bestN ⟨[⟨0, 3⟩, ⟨1, 1⟩, ⟨2, 4⟩]⟩ 3 1 50 50 0 none 1 []
    (by decide) (by decide)

/-- Claim C8: BestN-mode selection equals the specified algorithm — sort by
descending score with ties broken by ascending index, take the first `n`,
return sorted by index — and returns every frame index when `n` is at least
the number of frames. -/
theorem C8_bestN_top_scores (ar : AnalysisResult) (bs bb n pct : Nat)
    (th : Score) (mf : Option Nat) (md : Nat) (man : List Nat) (hn : 1 ≤ n) :
    getSelectedFrameIndices (some ar) .bestN ⟨bs, bb, n, pct⟩ th mf md man =
      bestNSpec (ar.frames.map (·.sharpness)) n ∧
    (ar.frames.length ≤ n →
      getSelectedFrameIndices (some ar) .bestN ⟨bs, bb, n, pct⟩ th mf md man =
        List.range ar.frames.length) := by
  refine ⟨bestN_eq_spec ar bs bb n pct th mf md man, fun hle => ?_⟩
  rw [bestN_eq_spec ar bs bb n pct th mf md man]
  simp only [bestNSpec]
  have hSlen : (List.insertionSort scoreLex
      (withIndices (ar.frames.map (·.sharpness)))).length = ar.frames.length := by
    rw [(List.perm_insertionSort scoreLex _).length_eq, withIndices_length,
      List.length_map]
  rw [List.take_of_length_le (by omega)]
  refine sort_perm_range ?_
  have hperm := (List.perm_insertionSort scoreLex
    (withIndices (ar.frames.map (·.sharpness)))).map (fun p : Scored => p.2)
  rw [withIndices_map_snd, List.length_map] at hperm
  exact hperm

/-- Witness for C8 at a concrete input where `n` exceeds the frame count. -/
theorem C8_witness :
    getSelectedFrameIndices (some ⟨[⟨0, 3⟩, ⟨1, 7⟩]⟩) .bestN ⟨3, 1, 5, 10⟩
        0 none 1 [] = List.range 2 :=
  (C8_bestN_top_scores ⟨[⟨0, 3⟩, ⟨1, 7⟩]⟩ 3 1 5 10 0 none 1 []
    (by decide)).2 (by decide)

/-- Claim C9: Manual-mode selection returns the caller's set sorted
ascending with duplicates removed and performs no range validation: any
out-of-range index in the set reappears in the selection, and the
`exportFrames` lookup `frames[idx]` for it yields `undefined` (`none`). -/
theorem C9_manual_no_validation (ar : AnalysisResult) (st : SelectionSettings)
    (th : Score) (mf : Option Nat) (md : Nat) (man : List Nat) (idx : Nat)
    (hidx : idx ∈ man) (hlen : ar.frames.length ≤ idx) :
    getSelectedFrameIndices (some ar) .manual st th mf md man =
      List.insertionSort (· ≤ ·) man.dedup ∧
    idx ∈ getSelectedFrameIndices (some ar) .manual st th mf md man ∧
    ar.frames.get? idx = none ∧
    none ∈ customResultFrames ar
      (getSelectedFrameIndices (some ar) .manual st th mf md man) := by
  have hmem : idx ∈ List.insertionSort (· ≤ ·) man.dedup :=
    (List.perm_insertionSort (· ≤ ·) man.dedup).mem_iff.mpr
      (List.mem_dedup.mpr hidx)
  have hnone : ar.frames.get? idx = none := List.get?_eq_none.mpr hlen
  exact ⟨rfl, hmem, hnone, List.mem_map.mpr ⟨idx, hmem, hnone⟩⟩

/-- Witness for C9 at a concrete input. -/
theorem C9_witness :
    getSelectedFrameIndices (some ⟨[⟨0, 1⟩]⟩) .manual ⟨3, 1, 50, 10⟩ 0 none 1 [5] =
      List.insertionSort (· ≤ ·) ([5].dedup) ∧
    5 ∈ getSelectedFrameIndices (some ⟨[⟨0, 1⟩]⟩) .manual ⟨3, 1, 50, 10⟩ 0 none 1 [5] ∧
    (⟨[⟨0, 1⟩]⟩ : AnalysisResult).frames.get? 5 = none ∧
    none ∈ customResultFrames ⟨[⟨0, 1⟩]⟩
      (getSelectedFrameIndices (some ⟨[⟨0, 1⟩]⟩) .manual ⟨3, 1, 50, 10⟩ 0 none 1 [5]) :=
  C9_manual_no_validation ⟨[⟨0, 1⟩]⟩ ⟨3, 1, 50, 10⟩ 0 none 1 [5] 5
    (by decide) (by decide)

/-- Claim C10: every index in the final Threshold-mode selection — after
distance filtering and the `max_frames` cut — refers to a frame whose
sharpness is at least the threshold. -/
theorem C10_selected_above_threshold (ar : AnalysisResult)
    (st : SelectionSettings) (th : Score) (mf : Option Nat) (md : Nat)
    (man : List Nat) (j : Nat)
    (hj : j ∈ getSelectedFrameIndices (some ar) .threshold st th mf md man) :
    ∃ f : FrameScore, ar.frames.get? j = some f ∧ th ≤ f.sharpness := by
  rw [threshold_eq_spec ar st th mf md man] at hj
  simp only [thresholdSelectSpec] at hj
  set scores := ar.frames.map (·.sharpness) with hscores
  set kept := if 1 < md then
      distanceFilter md none
        ((withIndices scores).filter (fun f => decide (th ≤ f.1)))
    else
      (withIndices scores).filter (fun f => decide (th ≤ f.1))
    with hkept
  have hp : ∃ p : Scored, p ∈ kept ∧ p.2 = j := by
    cases mf with
    | none => exact List.mem_map.mp hj
    | some m =>
      dsimp only at hj
      by_cases hcond : m ≠ 0 ∧ m < kept.length
      · rw [if_pos hcond] at hj
        have hj' := (List.perm_insertionSort (· ≤ ·) _).mem_iff.mp hj
        obtain ⟨p, hpmem, hpj⟩ := List.mem_map.mp hj'
        have hp₁ : p ∈ List.insertionSort scoreLex kept :=
          (List.take_sublist m _).subset hpmem
        have hp₂ : p ∈ kept :=
          (List.perm_insertionSort scoreLex kept).mem_iff.mp hp₁
        exact ⟨p, hp₂, hpj⟩
      · rw [if_neg hcond] at hj
        exact List.mem_map.mp hj
  obtain ⟨p, hpkept, hpj⟩ := hp
  have hpfil : p ∈ (withIndices scores).filter (fun f => decide (th ≤ f.1)) := by
    rw [hkept] at hpkept
    by_cases hmd : 1 < md
    · rw [if_pos hmd] at hpkept
      exact (distanceFilter_sublist md none _).subset hpkept
    · rw [if_neg hmd] at hpkept
      exact hpkept
  have hth : th ≤ p.1 := of_decide_eq_true (List.mem_filter.mp hpfil).2
  obtain ⟨hlt, hget⟩ := mem_withIndices (List.mem_filter.mp hpfil).1
  rw [hscores, List.get?_map] at hget
  cases hf : ar.frames.get? p.2 with
  | none =>
    rw [hf] at hget
    simp at hget
  | some f =>
    rw [hf] at hget
    simp at hget
    subst hpj
    exact ⟨f, hf, by rw [hget]; exact hth⟩

/-- Witness for C10 at a concrete input. -/
theorem C10_witness :
    ∃ f : FrameScore, (⟨[⟨0, 5⟩]⟩ : AnalysisResult).frames.get? 0 = some f ∧
      (0 : Score) ≤ f.sharpness :=
  C10_selected_above_threshold ⟨[⟨0, 5⟩]⟩ ⟨3, 1, 50, 10⟩ 0 none 1 [] 0
    (by decide)

end SFE
